import Mathlib

/-!
Verification of the `lsystem` rewriting engine.

Shallow embedding of the Rust crate `lsystem` (files `src/lib.rs`,
`src/lsystem.rs`, `src/lstring.rs`).  The crate implements a generic
Lindenmayer-system engine:

* `LSystem<T, P: LRules<T>>` holds a rule set, an axiom `Vec<T>` and a
  mutable state `Vec<T>`;
* `Iterator::next` rewrites the state in place with a cursor: at each
  position it looks the atom up in the rules; on `Some(atoms)` it removes
  the atom, inserts the production one element at a time (advancing the
  cursor past it) and records that an expansion happened; on `None` it
  advances the cursor by one.  It returns `Some(state.clone())` when at
  least one expansion happened and `None` otherwise;
* `MapRules` is a `HashMap`-backed rule set with `set`, `set_str` and the
  `LRules::map` lookup.

Vectors are embedded as `List`, the `LRules<T>` trait object as a function
`T → Option (List T)`, and the `HashMap` as an association list with
unique keys (lookup returns the first match, insert replaces in place and
returns the previous value, exactly the observable behaviour of
`HashMap::get`/`HashMap::insert`).  Mutation becomes explicit state
passing: `LSystem.next` returns the updated engine together with the
`Option` result.
-/

namespace LSys

/-- Embedding of `Vec::insert(i, a)`: insert `a` at index `i`, shifting the suffix right.
The Rust call panics for `i > len`; every call site below has `i ≤ len`,
where this definition agrees with it. -/
def vecInsert {T : Type} (l : List T) (i : Nat) (a : T) : List T :=
  l.take i ++ a :: l.drop i

/-- Embedding of `Vec::remove(i)`: delete the element at index `i`, shifting the suffix
left.  The Rust call panics for `i ≥ len`; every call site below has
`i < len`, where this definition agrees with it. -/
def vecRemove {T : Type} (l : List T) (i : Nat) : List T :=
  l.take i ++ l.drop (i + 1)

/-- The body of `for a in atoms { self.state.insert(i, a); i += 1; }` in
`LSystem::next` (src/lib.rs lines 202-205): insert the production one atom
at a time, advancing the cursor past each inserted atom.  Returns the new
state together with the final cursor. -/
def insertProduction {T : Type} : List T → Nat → List T → List T × Nat
  | state, i, [] => (state, i)
  | state, i, a :: rest => insertProduction (vecInsert state i a) (i + 1) rest

theorem vecInsert_length {T : Type} (l : List T) (i : Nat) (a : T)
    (h : i ≤ l.length) : (vecInsert l i a).length = l.length + 1 := by
  simp [vecInsert]
  omega

theorem vecRemove_length {T : Type} (l : List T) (i : Nat)
    (h : i < l.length) : (vecRemove l i).length = l.length - 1 := by
  simp [vecRemove]
  omega

theorem insertProduction_length {T : Type} :
    ∀ (p state : List T) (i : Nat), i ≤ state.length →
      ((insertProduction state i p).1.length = state.length + p.length ∧
        (insertProduction state i p).2 = i + p.length)
  | [], state, i, _ => by simp [insertProduction]
  | a :: rest, state, i, h => by
    have h1 : i + 1 ≤ (vecInsert state i a).length := by
      rw [vecInsert_length state i a h]; omega
    have ih := insertProduction_length rest (vecInsert state i a) (i + 1) h1
    rw [vecInsert_length state i a h] at ih
    simp only [insertProduction]
    exact ⟨by rw [ih.1]; simp; omega, by rw [ih.2]; simp; omega⟩

/-- The scanning loop of `LSystem::next` (src/lib.rs lines 196-212): scan
the (possibly growing) state left to right with cursor `i`; expand each
atom with a production in place, pass terminal atoms through.  Returns the
final state and the `expanded` flag. -/
def nextLoop {T : Type} (rules : T → Option (List T)) (state : List T)
    (i : Nat) (expanded : Bool) : List T × Bool :=
  if h : i < state.length then
    match rules state[i] with
    | some atoms =>
      nextLoop rules (insertProduction (vecRemove state i) i atoms).1
        (insertProduction (vecRemove state i) i atoms).2 true
    | none => nextLoop rules state (i + 1) expanded
  else (state, expanded)
termination_by state.length - i
decreasing_by
  · have hrem : (vecRemove state i).length = state.length - 1 :=
      vecRemove_length state i h
    have hle : i ≤ (vecRemove state i).length := by omega
    have hins := insertProduction_length atoms (vecRemove state i) i hle
    rw [hrem] at hins
    rw [hins.1, hins.2]
    omega
  · omega

/-- Here `produce rules a` is the sequence that replaces `a` in one rewrite:
its production when `rules` returns `Some`, the singleton `[a]` when
`rules` returns `None` (terminal atom).  This is the spec's
"production-or-itself" mapping. -/
def produce {T : Type} (rules : T → Option (List T)) (a : T) : List T :=
  match rules a with
  | some p => p
  | none => [a]

/-- Spec-side rebuild strategy: map every atom of the old state to its
production-or-itself and concatenate the results, left to right.  Written
from the spec's words for the refinement claim; to be compared with the
in-place `nextLoop`. -/
def rewriteAll {T : Type} (rules : T → Option (List T)) : List T → List T
  | [] => []
  | a :: rest => produce rules a ++ rewriteAll rules rest

theorem vecRemove_append {T : Type} (done tail : List T) (a : T) :
    vecRemove (done ++ a :: tail) done.length = done ++ tail := by
  unfold vecRemove
  have h1 : (done ++ a :: tail).take done.length = done := List.take_left done _
  have h2 : (done ++ a :: tail).drop (done.length + 1) = tail := by
    have : done ++ a :: tail = (done ++ [a]) ++ tail := by simp
    rw [this]
    have hlen : done.length + 1 = (done ++ [a]).length := by simp
    rw [hlen]
    exact List.drop_left _ _
  rw [h1, h2]

theorem vecInsert_append {T : Type} (done tail : List T) (a : T) :
    vecInsert (done ++ tail) done.length a = done ++ a :: tail := by
  unfold vecInsert
  rw [List.take_left done tail, List.drop_left done tail]

theorem insertProduction_append {T : Type} :
    ∀ (p done tail : List T),
      insertProduction (done ++ tail) done.length p
        = ((done ++ p) ++ tail, (done ++ p).length)
  | [], done, tail => by simp [insertProduction]
  | a :: rest, done, tail => by
    rw [insertProduction, vecInsert_append done tail a]
    have h1 : done ++ a :: tail = (done ++ [a]) ++ tail := by simp
    have h2 : done.length + 1 = (done ++ [a]).length := by simp
    rw [h1, h2, insertProduction_append rest (done ++ [a]) tail]
    simp

/-- One full scan of the loop starting with cursor at the boundary between
an already-processed part `done` and an unprocessed part `rest` produces
`done` followed by the rebuild of `rest`, and the `expanded` flag is the
disjunction of the incoming flag with "some atom of `rest` has a
production". -/
theorem nextLoop_eq {T : Type} (rules : T → Option (List T)) :
    ∀ (rest done : List T) (e : Bool),
      nextLoop rules (done ++ rest) done.length e
        = (done ++ rewriteAll rules rest,
            e || rest.any fun a => (rules a).isSome)
  | [], done, e => by
    rw [nextLoop, dif_neg (by simp)]
    simp [rewriteAll]
  | a :: rest, done, e => by
    have h : done.length < (done ++ a :: rest).length := by simp
    rw [nextLoop, dif_pos h]
    rw [List.getElem_append_right (Nat.le_refl done.length)]
    simp only [Nat.sub_self, List.getElem_cons_zero]
    cases hr : rules a with
    | none =>
      have h1 : done ++ a :: rest = (done ++ [a]) ++ rest := by simp
      have h2 : done.length + 1 = (done ++ [a]).length := by simp
      rw [h1, h2, nextLoop_eq rules rest (done ++ [a]) e]
      simp [rewriteAll, produce, hr]
    | some p =>
      dsimp only
      rw [vecRemove_append done rest a, insertProduction_append p done rest]
      rw [nextLoop_eq rules rest (done ++ p) true]
      simp [rewriteAll, produce, hr]

/-- The struct `LSystem<T, P: LRules<T>> { rules: P, axiom: Vec<T>,
state: Vec<T> }`.  The rule set is embedded through its trait capability
`LRules::map`, a function `T → Option (List T)`; `axm` is the field the
source calls `axiom`. -/
structure LSystem (T : Type) where
  rules : T → Option (List T)
  axm : List T
  state : List T

/-- Embedding of `LSystem::new(rules, axiom)`: store the rules, initialize the state as
a clone of the axiom, store the axiom. -/
def LSystem.new {T : Type} (rules : T → Option (List T)) (axm : List T) :
    LSystem T :=
  { rules := rules, state := axm, axm := axm }

/-- Embedding of `LSystem::reset`: set the state back to a clone of the axiom. -/
def LSystem.reset {T : Type} (s : LSystem T) : LSystem T :=
  { s with state := s.axm }

/-- Embedding of `<LSystem as Iterator>::next`: run the scanning loop from cursor 0
with `expanded = false`; return `Some` of a clone of the new state if at
least one expansion occurred, `None` otherwise.  The mutation of `self`
becomes the first component of the result. -/
def LSystem.next {T : Type} (s : LSystem T) : LSystem T × Option (List T) :=
  ({ s with state := (nextLoop s.rules s.state 0 false).1 },
    if (nextLoop s.rules s.state 0 false).2 then
      some (nextLoop s.rules s.state 0 false).1
    else none)

/-- Iterated stepping: `stepN n s` is the engine after `n` calls to `next` (results discarded). -/
def stepN {T : Type} : Nat → LSystem T → LSystem T
  | 0, s => s
  | n + 1, s => stepN n (s.next).1

/-- Characterization of one `next` call through the rebuild strategy. -/
theorem next_eq {T : Type} (s : LSystem T) :
    s.next = ({ s with state := rewriteAll s.rules s.state },
      if s.state.any (fun a => (s.rules a).isSome) then
        some (rewriteAll s.rules s.state)
      else none) := by
  have h := nextLoop_eq s.rules s.state [] false
  simp only [List.nil_append, List.length_nil, Bool.false_or] at h
  rw [LSystem.next, h]

theorem rewriteAll_length {T : Type} (rules : T → Option (List T)) :
    ∀ l : List T,
      (rewriteAll rules l).length
        = (l.map fun a =>
            match rules a with
            | some p => p.length
            | none => 1).sum
  | [] => by simp [rewriteAll]
  | a :: rest => by
    rw [rewriteAll, List.length_append, rewriteAll_length rules rest]
    simp only [List.map_cons, List.sum_cons]
    cases hr : rules a <;> simp [produce, hr]

theorem rewriteAll_append {T : Type} (rules : T → Option (List T)) :
    ∀ u v : List T,
      rewriteAll rules (u ++ v) = rewriteAll rules u ++ rewriteAll rules v
  | [], v => by simp [rewriteAll]
  | a :: rest, v => by
    rw [List.cons_append, rewriteAll, rewriteAll,
      rewriteAll_append rules rest v, List.append_assoc]

theorem rewriteAll_of_all_none {T : Type} (rules : T → Option (List T)) :
    ∀ l : List T, (∀ a ∈ l, rules a = none) → rewriteAll rules l = l
  | [], _ => rfl
  | a :: rest, h => by
    rw [rewriteAll, produce, h a (by simp),
      rewriteAll_of_all_none rules rest fun b hb => h b (by simp [hb])]
    rfl

theorem any_isSome_false_iff {T : Type} (rules : T → Option (List T))
    (l : List T) :
    ((l.any fun a => (rules a).isSome) = false ↔ ∀ a ∈ l, rules a = none) := by
  rw [← Bool.not_eq_true, List.any_eq_true]
  constructor
  · intro h a ha
    rcases hr : rules a with _ | p
    · rfl
    · exact absurd ⟨a, ha, by simp [hr]⟩ h
  · rintro h ⟨a, ha, hs⟩
    rw [h a ha] at hs
    simp at hs

/-- The scanning loop of `LSystem::next` instrumented with a step budget:
`none` means the budget was exhausted before the cursor reached the end of
the sequence.  Each recursive call is one iteration of the `while` loop. -/
def nextLoopFuel {T : Type} (rules : T → Option (List T)) :
    Nat → List T → Nat → Bool → Option (List T × Bool)
  | 0, state, i, expanded =>
    if i < state.length then none else some (state, expanded)
  | fuel + 1, state, i, expanded =>
    if h : i < state.length then
      match rules state[i] with
      | some atoms =>
        nextLoopFuel rules fuel (insertProduction (vecRemove state i) i atoms).1
          (insertProduction (vecRemove state i) i atoms).2 true
      | none => nextLoopFuel rules fuel state (i + 1) expanded
    else some (state, expanded)

theorem nextLoopFuel_converges {T : Type} (rules : T → Option (List T)) :
    ∀ (rest done : List T) (e : Bool),
      nextLoopFuel rules rest.length (done ++ rest) done.length e
        = some (nextLoop rules (done ++ rest) done.length e)
  | [], done, e => by
    rw [nextLoop, dif_neg (by simp)]
    simp [nextLoopFuel]
  | a :: rest, done, e => by
    have h : done.length < (done ++ a :: rest).length := by simp
    rw [nextLoop, dif_pos h]
    rw [List.length_cons, nextLoopFuel, dif_pos h]
    rw [List.getElem_append_right (Nat.le_refl done.length)]
    simp only [Nat.sub_self, List.getElem_cons_zero]
    cases hr : rules a with
    | none =>
      dsimp only
      have h1 : done ++ a :: rest = (done ++ [a]) ++ rest := by simp
      have h2 : done.length + 1 = (done ++ [a]).length := by simp
      rw [h1, h2, nextLoopFuel_converges rules rest (done ++ [a]) e]
    | some p =>
      dsimp only
      rw [vecRemove_append done rest a, insertProduction_append p done rest]
      rw [nextLoopFuel_converges rules rest (done ++ p) true]

/-- The lookup of `HashMap::get` on the association-list embedding of the
`HashMap<T, Vec<T>>` in `MapRules`: the first binding of the key, if any. -/
def hmGet {T : Type} [DecidableEq T] :
    List (T × List T) → T → Option (List T)
  | [], _ => none
  | (k, v) :: rest, q => if q = k then some v else hmGet rest q

/-- Embedding of `HashMap::insert` on the association-list embedding: replace the first
binding of the key in place and return the previous value, or append a new
binding and return `none`. -/
def hmInsert {T : Type} [DecidableEq T] :
    List (T × List T) → T → List T → List (T × List T) × Option (List T)
  | [], k, v => ([(k, v)], none)
  | (k0, v0) :: rest, k, v =>
    if k = k0 then ((k, v) :: rest, some v0)
    else ((k0, v0) :: (hmInsert rest k v).1, (hmInsert rest k v).2)

/-- The struct `MapRules<T> \x7b productions: HashMap<T, Vec<T>> \x7d`, the lookup-table
rule set, with the hash map embedded as an association list. -/
structure MapRules (T : Type) where
  productions : List (T × List T)

/-- Embedding of `MapRules::new()`: an empty rule set. -/
def MapRules.new {T : Type} : MapRules T := ⟨[]⟩

/-- Embedding of `MapRules::set(k, v)`, i.e. `self.productions.insert(k, v)` — register the
production and return the previous one, if any.  The mutation of `self`
becomes the first component of the result. -/
def MapRules.set {T : Type} [DecidableEq T] (m : MapRules T) (k : T)
    (v : List T) : MapRules T × Option (List T) :=
  (⟨(hmInsert m.productions k v).1⟩, (hmInsert m.productions k v).2)

/-- Embedding of `<MapRules as LRules>::map`: look the atom up in the table and return
a clone of the stored sequence, or `None`. -/
def MapRules.map {T : Type} [DecidableEq T] (m : MapRules T) (input : T) :
    Option (List T) :=
  hmGet m.productions input

/-- Embedding of `MapRules::set_str(k, v)`: collect the characters of `v` into a vector
and `set` it as the production of `k`. -/
def MapRules.set_str (m : MapRules Char) (k : Char) (v : String) :
    MapRules Char × Option (List Char) :=
  m.set k v.toList

/-- A rule set built by a sequence of `set` calls starting from
`MapRules::new()`. -/
def buildRules {T : Type} [DecidableEq T] (ops : List (T × List T)) :
    MapRules T :=
  ops.foldl (fun m kv => (m.set kv.1 kv.2).1) MapRules.new

theorem hmInsert_snd {T : Type} [DecidableEq T] :
    ∀ (l : List (T × List T)) (k : T) (v : List T),
      (hmInsert l k v).2 = hmGet l k
  | [], _, _ => rfl
  | (k0, v0) :: rest, k, v => by
    by_cases hk : k = k0
    · simp [hmInsert, hmGet, hk]
    · simp [hmInsert, hmGet, hk, hmInsert_snd rest k v]

theorem hmGet_insert_self {T : Type} [DecidableEq T] :
    ∀ (l : List (T × List T)) (k : T) (v : List T),
      hmGet (hmInsert l k v).1 k = some v
  | [], k, v => by simp [hmInsert, hmGet]
  | (k0, v0) :: rest, k, v => by
    by_cases hk : k = k0
    · simp [hmInsert, hmGet, hk]
    · simp [hmInsert, hmGet, hk, hmGet_insert_self rest k v]

theorem hmGet_insert_other {T : Type} [DecidableEq T] :
    ∀ (l : List (T × List T)) (k : T) (v : List T) (q : T), q ≠ k →
      hmGet (hmInsert l k v).1 q = hmGet l q
  | [], k, v, q, hq => by simp [hmInsert, hmGet, hq]
  | (k0, v0) :: rest, k, v, q, hq => by
    by_cases hk : k = k0
    · subst hk
      simp [hmInsert, hmGet, hq]
    · by_cases hq0 : q = k0
      · simp [hmInsert, hmGet, hk, hq0]
      · simp [hmInsert, hmGet, hk, hq0, hmGet_insert_other rest k v q hq]

theorem buildRules_map_not_mem {T : Type} [DecidableEq T] (k : T) :
    ∀ (ops : List (T × List T)) (m : MapRules T),
      k ∉ ops.map Prod.fst →
      (ops.foldl (fun m kv => (m.set kv.1 kv.2).1) m).map k = m.map k
  | [], m, _ => rfl
  | (k0, v0) :: rest, m, hk => by
    have hk0 : k ≠ k0 := by
      intro h
      exact hk (by simp [h])
    rw [List.foldl_cons,
      buildRules_map_not_mem k rest _ (by
        intro h
        exact hk (by simp [h]))]
    exact hmGet_insert_other m.productions k0 v0 k hk0

theorem stepN_of_fixed {T : Type} (s : LSystem T) (h : (s.next).1 = s) :
    ∀ n : Nat, stepN n s = s
  | 0 => rfl
  | n + 1 => by rw [stepN, h, stepN_of_fixed s h n]

theorem rewriteAll_of_all_empty {T : Type} (rules : T → Option (List T)) :
    ∀ l : List T, (∀ b ∈ l, rules b = some []) → rewriteAll rules l = []
  | [], _ => rfl
  | a :: rest, h => by
    rw [rewriteAll, produce, h a (by simp),
      rewriteAll_of_all_empty rules rest fun b hb => h b (by simp [hb])]
    rfl

/-- The algae rule set of the crate's tests and doc examples:
`rules.set_str('A', "AB"); rules.set_str('B', "A")`. -/
def algaeRules : MapRules Char :=
  ((MapRules.new.set_str 'A' "AB").1.set_str 'B' "A").1

/-- The algae engine: `LSystem::new(rules, "A".chars().collect())`. -/
def algaeSystem : LSystem Char :=
  LSystem.new algaeRules.map ['A']

/-- An engine over `Nat` in which every atom is terminal. -/
def fixSys : LSystem Nat :=
  LSystem.new (fun _ => none) [1]

/-- An engine over `Nat` with rule `0 → [2]` and terminal atom `1`, whose
state is `[0, 1, 0]`. -/
def w4sys : LSystem Nat :=
  LSystem.new (fun c => if c = 0 then some [2] else none) [0, 1, 0]

/-- An engine over `Nat` in which every atom produces the empty sequence. -/
def delSys : LSystem Nat :=
  LSystem.new (fun _ => some []) [7]

/-- C1: one call to `LSystem::next` leaves the engine's state equal to the
concatenation, in left-to-right order, of the production-or-itself of each
atom of the old state (`rewriteAll`, written from the spec's rebuild
strategy), and the returned value, when it is `Some`, is that same
sequence — so each atom is rewritten at most once per call and inserted
atoms are not re-scanned. -/
theorem c1_next_refines_rebuild {T : Type} (s : LSystem T) :
    (s.next).1.state = rewriteAll s.rules s.state ∧
    ((s.next).2 = none ∨ (s.next).2 = some (rewriteAll s.rules s.state)) := by
  rw [next_eq]
  refine ⟨rfl, ?_⟩
  by_cases h : s.state.any fun a => (s.rules a).isSome
  · right
    simp [h]
  · left
    simp [h]

/-- C2: after one call to `LSystem::next` the length of the engine's state
is the sum, over the atoms of the old state, of the production length when
the rules return `Some` and `1` when they return `None`. -/
theorem c2_length_accounting {T : Type} (s : LSystem T) :
    (s.next).1.state.length
      = (s.state.map fun a =>
          match s.rules a with
          | some p => p.length
          | none => 1).sum := by
  rw [next_eq]
  exact rewriteAll_length s.rules s.state

/-- C3: `LSystem::next` returns `None` exactly when every atom of the
current state is terminal (vacuously so for the empty state); in that case
the engine is left unchanged, hence the call after any number of further
`next` calls still returns `None`. -/
theorem c3_fixed_point {T : Type} (s : LSystem T) :
    ((s.next).2 = none ↔ ∀ a ∈ s.state, s.rules a = none) ∧
    ((s.next).2 = none →
      (s.next).1 = s ∧ ∀ n : Nat, ((stepN n s).next).2 = none) := by
  have hiff : (s.next).2 = none ↔ ∀ a ∈ s.state, s.rules a = none := by
    rw [next_eq]
    by_cases h : s.state.any fun a => (s.rules a).isSome
    · simp only [h, if_true]
      constructor
      · intro hc
        exact absurd hc (by simp)
      · intro hall
        rw [(any_isSome_false_iff s.rules s.state).2 hall] at h
        exact absurd h (by simp)
    · simp only [Bool.not_eq_true] at h
      simp only [h, Bool.false_eq_true, if_false, true_iff]
      exact (any_isSome_false_iff s.rules s.state).1 h
  refine ⟨hiff, fun hn => ?_⟩
  have hall := hiff.1 hn
  have hfix : (s.next).1 = s := by
    rw [next_eq]
    simp only
    rw [rewriteAll_of_all_none s.rules s.state hall]
  refine ⟨hfix, fun n => ?_⟩
  rw [stepN_of_fixed s hfix n]
  exact hn

/-- C3 witness: a concrete all-terminal engine on which `next` returns
`None` and leaves the engine unchanged. -/
theorem c3_fixed_point_witness :
    (fixSys.next).2 = none ∧ (fixSys.next).1 = fixSys := by
  have h := c3_fixed_point fixSys
  have hn : (fixSys.next).2 = none := h.1.mpr fun a _ => rfl
  exact ⟨hn, (h.2 hn).1⟩

/-- C4: a terminal atom passes through one call to `LSystem::next`
unchanged and in place: if the old state is `u ++ a :: v` with `a`
terminal, the new state is the rewrite of `u`, then `a` itself, then the
rewrite of `v`. -/
theorem c4_terminal_pass_through {T : Type} (s : LSystem T) (u v : List T)
    (a : T) (hs : s.state = u ++ a :: v) (ha : s.rules a = none) :
    (s.next).1.state = rewriteAll s.rules u ++ a :: rewriteAll s.rules v := by
  rw [next_eq]
  simp only
  rw [hs, rewriteAll_append s.rules u (a :: v), rewriteAll, produce, ha]
  rfl

/-- C4 witness: in the engine with rule `0 → [2]` and state `[0, 1, 0]`,
the terminal atom `1` survives in place. -/
theorem c4_terminal_pass_through_witness :
    w4sys.state = [0] ++ 1 :: [0] ∧
    (w4sys.next).1.state
      = rewriteAll w4sys.rules [0] ++ 1 :: rewriteAll w4sys.rules [0] :=
  ⟨rfl, c4_terminal_pass_through w4sys [0] [0] 1 rfl (by decide)⟩

/-- C5: `reset` sets the state to the axiom, and the engine after `reset`
is equal (as a value, so with identical subsequent behaviour) to a freshly
constructed engine with the same rules and axiom; `new` initializes the
state as a copy of the axiom. -/
theorem c5_reset_invariant {T : Type} (s : LSystem T)
    (rules : T → Option (List T)) (ax : List T) :
    (s.reset).state = s.axm ∧ s.reset = LSystem.new s.rules s.axm ∧
    (LSystem.new rules ax).state = ax :=
  ⟨rfl, rfl, rfl⟩

/-- C6: the scanning loop of `LSystem::next` terminates — with a step
budget equal to the length of the current state, the instrumented loop
reaches the end of the (possibly growing) sequence and returns exactly the
value of the unbudgeted loop, rather than exhausting its fuel. -/
theorem c6_loop_terminates {T : Type} (rules : T → Option (List T))
    (state : List T) :
    nextLoopFuel rules state.length state 0 false
      = some (nextLoop rules state 0 false) := by
  have h := nextLoopFuel_converges rules state [] false
  simpa using h

/-- C7: `MapRules::set(k, v)` returns the previously registered production
of `k` (its `map` before the call), after it `map k` returns `Some v`, and
an atom never touched by any `set` of a build sequence has no production. -/
theorem c7_map_rules_set {T : Type} [DecidableEq T] (m : MapRules T) (k : T)
    (v : List T) (ops : List (T × List T)) (hk : k ∉ ops.map Prod.fst) :
    (m.set k v).2 = m.map k ∧ ((m.set k v).1).map k = some v ∧
    (buildRules ops).map k = none := by
  refine ⟨hmInsert_snd m.productions k v, hmGet_insert_self m.productions k v, ?_⟩
  rw [buildRules, buildRules_map_not_mem k ops MapRules.new hk]
  rfl

/-- C7 witness: a concrete `set` on an empty rule set, with a build
sequence that never touches the key `0`. -/
theorem c7_map_rules_set_witness :
    (0 : Nat) ∉ ([(1, [5])] : List (Nat × List Nat)).map Prod.fst ∧
    (((MapRules.new : MapRules Nat).set 0 [2, 3]).2
        = (MapRules.new : MapRules Nat).map 0 ∧
      (((MapRules.new : MapRules Nat).set 0 [2, 3]).1).map 0 = some [2, 3] ∧
      (buildRules [(1, [5])]).map (0 : Nat) = none) :=
  ⟨by decide, c7_map_rules_set MapRules.new 0 [2, 3] [(1, [5])] (by decide)⟩

/-- C8: the algae system (rules `A → AB`, `B → A` installed with
`set_str`, axiom `"A"`) yields generations `"AB"`, `"ABA"`, `"ABAAB"`,
`"ABAABABA"` on the first four calls to `next`. -/
theorem c8_algae_generations :
    (algaeSystem.next).2 = some ['A', 'B'] ∧
    ((algaeSystem.next).1.next).2 = some ['A', 'B', 'A'] ∧
    (((algaeSystem.next).1.next).1.next).2
      = some ['A', 'B', 'A', 'A', 'B'] ∧
    ((((algaeSystem.next).1.next).1.next).1.next).2
      = some ['A', 'B', 'A', 'A', 'B', 'A', 'B', 'A'] := by
  simp only [next_eq]
  decide

/-- C9: `LSystem::next` mutates only the state field — the rules and the
axiom of the engine are unchanged by the call. -/
theorem c9_next_frame {T : Type} (s : LSystem T) :
    (s.next).1.rules = s.rules ∧ (s.next).1.axm = s.axm :=
  ⟨rfl, rfl⟩

/-- C10: an atom whose production is the empty sequence is deleted by
`next` yet still counts as an expansion: a nonempty state all of whose
atoms map to `Some []` yields `Some []` (not the end signal), leaves the
state empty, and every later call returns `None`. -/
theorem c10_empty_production {T : Type} (s : LSystem T)
    (hne : s.state ≠ []) (hall : ∀ b ∈ s.state, s.rules b = some []) :
    (s.next).2 = some [] ∧ (s.next).1.state = [] ∧
    (((s.next).1).next).2 = none := by
  obtain ⟨a, rest, hsr⟩ := List.exists_cons_of_ne_nil hne
  have ha : s.rules a = some [] := hall a (by rw [hsr]; simp)
  have hany : (s.state.any fun b => (s.rules b).isSome) = true := by
    rw [hsr, List.any_cons, ha]
    simp
  have hempty : rewriteAll s.rules s.state = [] :=
    rewriteAll_of_all_empty s.rules s.state hall
  refine ⟨?_, ?_, ?_⟩
  · rw [next_eq]
    simp only [hany, if_true, hempty]
  · rw [next_eq]
    simp only
    exact hempty
  · simp only [next_eq]
    simp only [hempty]
    simp

/-- C10 witness: the engine whose single atom `7` produces the empty
sequence returns `Some []`, empties its state, and then signals the end. -/
theorem c10_empty_production_witness :
    (delSys.next).2 = some [] ∧ (delSys.next).1.state = [] ∧
    (((delSys.next).1).next).2 = none :=
  c10_empty_production delSys (by decide) fun b _ => rfl

end LSys
